import Mathlib

/-!
Verification of the traderkit-server backfill orchestration and write-routing
engine (package `ohlcv`, with the retention-window calculator from package
`utils`), as a shallow embedding in Lean 4.

Modelling conventions:
* Go `time.Time` values carried in rows are modelled as `Int` (nanoseconds since
  the Unix epoch); `t.Compare(u) >= 0` is `u ≤ t` and `t.Compare(u) <= 0` is
  `t ≤ u`, faithful because `Compare` is the total order on instants.
* Go `[]any` rows are lists of a value type `Val`; the zero value of `[]any`
  (a nil slice) is the empty list.
* Channels deliver the finite list of values sent before close, in order; a
  receive after close yields the zero value with `ok = false`.
* Calendar arithmetic is modelled at day granularity: a day is its day number
  since 1970-01-01 (a Thursday) in the market's New York local calendar, so
  Go `Weekday()` is `(d + 4) % 7` with Sunday = 0 … Saturday = 6.
-/

namespace Traderkit

/-- One element of a loosely typed `[]any` row. Prices travel through the
pipeline untouched, so the Go `float64` fields are modelled as rationals. -/
inductive Val where
  | vStr (s : String)
  | vTime (t : Int)
  | vRat (q : ℚ)
  | vNat (n : Nat)
deriving DecidableEq

/-- A row on the pipeline channels: Go `[]any`. -/
abbrev Row := List Val

/-- The Go zero value of `[]any` (a nil slice), received from a closed channel. -/
def zeroRow : Row := []

/-- `partiallyFilledRange` (src/ohlcv/partially_filled_range.go): the earliest
and latest of the per-symbol maximum stored timestamps; `none` models a nil
pointer. -/
structure partiallyFilledRange where
  FilledBefore : Option Int
  UnfilledAfter : Option Int
deriving DecidableEq

/-- `partiallyFilledRange.Contains` (src/ohlcv/partially_filled_range.go lines
14-24), exactly as implemented: return true when `FilledBefore` is present and
`t.Compare(*FilledBefore) >= 0`, else true when `UnfilledAfter` is present and
`t.Compare(*UnfilledAfter) <= 0`, else false. -/
def partiallyFilledRange.Contains (ir : partiallyFilledRange) (t : Int) : Bool :=
  if ir.FilledBefore.any (fun fb => decide (fb ≤ t)) then true
  else if ir.UnfilledAfter.any (fun ua => decide (t ≤ ua)) then true
  else false

/-- The merge predicate as the specification words it: the timestamp lies
within `[filledBefore, unfilledAfter]`, inclusive at both ends. Stated from
the spec, to be compared with the implemented `Contains`. -/
def mergePredicateSpec (fb ua t : Int) : Bool :=
  decide (fb ≤ t) && decide (t ≤ ua)

/-- `values[1].(time.Time)`: the Go type assertion the router applies to a row.
Every row the RowSource produces carries its timestamp at index 1 (any other
shape would make the Go program panic, which the pipeline never survives); the
catch-all branch is unreachable for produced rows. -/
def rowTs (r : Row) : Int :=
  match r with
  | _ :: Val.vTime t :: _ => t
  | _ => 0

/-- What the router goroutine (src/unnamed/part_005 lines 83-112) emitted by
the end of a run: rows sent on `copyFromCh`, rows sent on `upsertCh`, and
errors sent on `errCh`, each in send order. -/
structure RouterOutput where
  bulk : List Row
  merge : List Row
  errs : List String
deriving DecidableEq

/-- The router loop: for each successful `iter.Next()`, `iter.Values()` yields
a row together with an optional error. An error is sent on `errCh`, and the
loop then still routes the row: to `upsertCh` when `pfr.Contains(values[1])`,
otherwise to `copyFromCh`. The loop never breaks early. -/
def routeRun (pfr : partiallyFilledRange) : List (Row × Option String) → RouterOutput
  | [] => ⟨[], [], []⟩
  | (values, e) :: rest =>
    let out := routeRun pfr rest
    let errs := match e with
      | some err => err :: out.errs
      | none => out.errs
    if pfr.Contains (rowTs values) then ⟨out.bulk, values :: out.merge, errs⟩
    else ⟨values :: out.bulk, out.merge, errs⟩

/-- `const batchSize = 1000` in `processViaUpsert`. -/
def batchSize : Nat := 1000

/-- The sequence of batches `processViaUpsert` (src/unnamed/part_005 lines
155-177) passes to `executeUpsert`, given the rows delivered on `upsertCh`
before it closes and the batch accumulated so far. After the channel closes a
receive yields `(zeroRow, false)`; the loop returns only when it observes a
closed channel with a non-empty batch, so a close on an empty batch first
appends the zero row and flushes it on the next iteration. -/
def upsertBatches : List Row → List Row → List (List Row)
  | r :: rest, batch =>
    let b := batch ++ [r]
    if batchSize ≤ b.length then b :: upsertBatches rest []
    else upsertBatches rest b
  | [], batch =>
    if 0 < batch.length then [batch]
    else [batch ++ [zeroRow]]

/-- A stored bar: one row of the `bars` table, columns
(s_id, ts, o, h, l, c, v, txns). -/
structure Bar where
  sId : String
  ts : Int
  o : ℚ
  h : ℚ
  l : ℚ
  c : ℚ
  v : Nat
  txns : Nat
deriving DecidableEq

/-- The storage primary key `(s_id, ts)`. -/
def Bar.key (b : Bar) : String × Int := (b.sId, b.ts)

/-- The `bars` table as a list of rows. -/
abbrev Store := List Bar

/-- Primary-key integrity of the `bars` table: no two rows share `(s_id, ts)`. -/
def wfStore (store : Store) : Prop := (store.map Bar.key).Nodup

/-- The database's execution of one row of the statement `executeUpsert`
(src/unnamed/part_005 lines 206-238) builds: `INSERT INTO bars (s_id, ts, o, h,
l, c, v, txns) VALUES … ON CONFLICT (s_id, ts) DO UPDATE SET o = EXCLUDED.o,
h = EXCLUDED.h, l = EXCLUDED.l, c = EXCLUDED.c, v = EXCLUDED.v,
txns = EXCLUDED.txns`. On a key conflict the stored row keeps its key and takes
every non-key column from the incoming row; the keys being equal, the stored
row becomes the incoming row. Without a conflict the row is appended. -/
def upsertRow (store : Store) (b : Bar) : Store :=
  if store.any (fun x => decide (x.key = b.key)) then
    store.map (fun x => if x.key = b.key then b else x)
  else store ++ [b]

/-- The database's execution of the full multi-row statement, row by row in
`VALUES` order. -/
def executeUpsert (store : Store) (rows : List Bar) : Store :=
  rows.foldl upsertRow store

/-- The copy-from goroutine (src/unnamed/part_005 lines 114-121), exactly as
written: it runs `processViaCopyFrom` but discards that call's result, and the
`if err != nil` guard reads the enclosing Backfill's `err` variable — which is
the value this function takes as `outerErr` and which is nil once the goroutine
is launched (Backfill returned early otherwise). The result is the list of
errors this goroutine sends on `errCh`. -/
def copyFromGoroutineSends (copyFromResult : Option String) (outerErr : Option String) :
    List String :=
  match copyFromResult, outerErr with
  | _, some e => ["could not process via COPY FROM: " ++ e]
  | _, none => []

/-- The upsert goroutine (src/unnamed/part_005 lines 123-129): it binds its own
`err := oi.processViaUpsert(upsertCh)` and reports a failure once. -/
def upsertGoroutineSends (upsertResult : Option String) : List String :=
  match upsertResult with
  | some e => ["could not process via INSERT: " ++ e]
  | none => []

/-- The final non-blocking drain of `errCh` (src/unnamed/part_005 lines
131-139): return the first queued error, or nil when the channel is empty. -/
def backfillDrain (errQueue : List String) : Option String :=
  errQueue.head?

/-- The error Backfill returns for one pipeline run: the first error on `errCh`
after all three stages finish. Two caveats scope this model, and every theorem
below stays inside both. First, `errCh` has capacity 2 and is drained only
after `wg.Wait()`, so a third send would block its goroutine forever and
Backfill would never return; the model is therefore used only for runs with at
most two error sends in total, where every send completes without blocking.
Second, the queue order fixes one interleaving (router sends, then the
copy-from goroutine's, then the upsert goroutine's); the theorems below only
use runs in which at most one stage reports errors, where every interleaving
yields this same drain result. -/
def backfillResult (pfr : partiallyFilledRange) (items : List (Row × Option String))
    (copyFromResult upsertResult : Option String) : Option String :=
  backfillDrain ((routeRun pfr items).errs ++
    copyFromGoroutineSends copyFromResult none ++
    upsertGoroutineSends upsertResult)

/-- Go `strconv.Atoi` digit accumulation over the characters after the optional
sign: every character must be a decimal digit and at least one must exist. -/
def digitsToNat : List Char → Option Nat → Option Nat
  | _, none => none
  | [], some n => some n
  | c :: cs, some n =>
    if c.isDigit then digitsToNat cs (some (n * 10 + (c.toNat - 48)))
    else none

/-- Go `strconv.Atoi`: optional leading `+` or `-`, then one or more decimal
digits; anything else is an error (`none`). Overflow of the platform int also
makes Atoi error in Go; it is not modelled because every overflowing numeral
exceeds 255 and Backfill treats an error and an out-of-range value alike. -/
def goAtoi (s : String) : Option Int :=
  match s.toList with
  | [] => none
  | '+' :: ds =>
    if ds = [] then none else (digitsToNat ds (some 0)).map Int.ofNat
  | '-' :: ds =>
    if ds = [] then none else (digitsToNat ds (some 0)).map (fun n => -(Int.ofNat n))
  | ds => (digitsToNat ds (some 0)).map Int.ofNat

/-- Backfill's retention count (src/unnamed/part_005 lines 59-64): parse
`RETENTION_PERIOD_DAYS` (`""` when the variable is absent); on a parse error or
a value outside [0,255] use 14; the subsequent `uint8(n)` conversion is exact
on the clamped range. -/
def retentionDays (env : String) : Nat :=
  match goAtoi env with
  | none => 14
  | some n => if n < 0 ∨ 255 < n then 14 else n.toNat

/-- Go `t.Weekday()` for the start of day `d`: 1970-01-01 was a Thursday and
Go numbers Sunday = 0 … Saturday = 6, so the weekday is `(d + 4) % 7`. -/
def weekday (d : Int) : Int := (d + 4) % 7

/-- The ten market holidays configured in `IsMarketHoliday`
(src/utils/progress_printer/progress_printer.go lines 77-103), as day numbers:
2025-01-01, 2025-01-20, 2025-02-17, 2025-04-18, 2025-05-26, 2025-06-19,
2025-07-04, 2025-09-01, 2025-11-27, 2025-12-25. -/
def marketHolidays : List Int :=
  [20089, 20108, 20136, 20196, 20234, 20258, 20273, 20332, 20419, 20447]

/-- `IsMarketHoliday`: the day matches one of the listed holiday dates. -/
def IsMarketHoliday (d : Int) : Bool :=
  decide (d ∈ marketHolidays)

/-- `IsMarketOpenOnDay` (src/utils/progress_printer/progress_printer.go lines
70-72): neither Saturday nor Sunday nor a market holiday. -/
def IsMarketOpenOnDay (d : Int) : Bool :=
  decide (weekday d ≠ 6) && decide (weekday d ≠ 0) && !IsMarketHoliday d

/-- One backward step of the `LastRetainedDay` loop, resolved: the nearest
market-open day strictly before `d`. The scan depth of seven covers a full
week; `exists_open_within_five` below shows an open day always occurs within
five days back, so the final fallback is never reached. -/
def prevOpenDay (d : Int) : Int :=
  if IsMarketOpenOnDay (d - 1) then d - 1
  else if IsMarketOpenOnDay (d - 2) then d - 2
  else if IsMarketOpenOnDay (d - 3) then d - 3
  else if IsMarketOpenOnDay (d - 4) then d - 4
  else if IsMarketOpenOnDay (d - 5) then d - 5
  else if IsMarketOpenOnDay (d - 6) then d - 6
  else d - 7

/-- `LastRetainedDay` (holiday-aware revision, src/utils/progress_printer/
progress_printer.go lines 48-66) at day granularity: starting from the
truncated New York day of `now`, walk back one day at a time, counting only
market-open days, until `n` of them have been counted; the day reached is
returned (its UTC rendering denotes the same instant). Each counted step is one
`prevOpenDay`; `lastRetainedLoop_eq` below ties this to the literal loop. -/
def LastRetainedDay (today : Int) : Nat → Int
  | 0 => today
  | n + 1 => prevOpenDay (LastRetainedDay today n)

/-- The literal Go loop of `LastRetainedDay`, with explicit fuel bounding the
number of iterations: `i := 0; curr := today; for i < n { curr = curr.AddDate(0,
0, -1); if IsMarketOpenOnDay(curr) { i++ } }; return curr`. `none` means the
fuel ran out before the loop finished. -/
def lastRetainedLoop (curr : Int) (i n : Nat) : Nat → Option Int
  | 0 => if i < n then none else some curr
  | fuel + 1 =>
    if i < n then
      let c := curr - 1
      if IsMarketOpenOnDay c then lastRetainedLoop c (i + 1) n fuel
      else lastRetainedLoop c i n fuel
    else some curr

/-- The market-open days whose full day lies strictly between the start of day
`a` and any instant within day `b`: the open days `d` with `a ≤ d < b`. -/
def marketOpenDaysBetween (a b : Int) : Nat :=
  ((Finset.Ico a b).filter (fun d => IsMarketOpenOnDay d = true)).card

/-- Nanoseconds in a day, and the UTC instant starting New York day `d` (fixed
Eastern offset of five hours; the daylight-saving variation never affects which
day is chosen, which is all the properties below depend on). -/
def dayStartUTC (d : Int) : Int :=
  (d * 86400 + 5 * 3600) * 1000000000

/-- Backfill's choice of ingestion start (src/unnamed/part_005 lines 55-67):
`*pfr.FilledBefore` when present, otherwise `LastRetainedDay(now, n)` with `n`
from `RETENTION_PERIOD_DAYS`; `nowDay` is the New York day of `time.Now()`. -/
def backfillIngestFrom (pfr : partiallyFilledRange) (env : String) (nowDay : Int) :
    Int :=
  match pfr.FilledBefore with
  | none => dayStartUTC (LastRetainedDay nowDay (retentionDays env))
  | some fb => fb

/-! ## Helper lemmas about the router -/

theorem routeRun_length (pfr : partiallyFilledRange) (items : List (Row × Option String)) :
    (routeRun pfr items).bulk.length + (routeRun pfr items).merge.length = items.length := by
  induction items with
  | nil => rfl
  | cons it rest ih =>
    obtain ⟨values, e⟩ := it
    by_cases hc : pfr.Contains (rowTs values) = true <;>
      simp [routeRun, hc] <;> omega

theorem routeRun_count (pfr : partiallyFilledRange) (items : List (Row × Option String))
    (r : Row) :
    (routeRun pfr items).bulk.count r + (routeRun pfr items).merge.count r =
      (items.map Prod.fst).count r := by
  induction items with
  | nil => rfl
  | cons it rest ih =>
    obtain ⟨values, e⟩ := it
    by_cases hr : values = r
    · subst hr
      by_cases hc : pfr.Contains (rowTs values) = true <;>
        simp [routeRun, hc, List.count_cons] <;> omega
    · by_cases hc : pfr.Contains (rowTs values) = true <;>
        simp [routeRun, hc, List.count_cons, hr] <;> omega

theorem routeRun_errs (pfr : partiallyFilledRange) (items : List (Row × Option String)) :
    (routeRun pfr items).errs = items.filterMap Prod.snd := by
  induction items with
  | nil => rfl
  | cons it rest ih =>
    obtain ⟨values, e⟩ := it
    by_cases hc : pfr.Contains (rowTs values) = true <;>
      cases e <;> simp [routeRun, hc, ih]

/-! ## Helper lemmas about the merge-path batching -/

/-- Feeding exactly enough rows to fill the current batch produces one flush of
that batch and restarts with an empty one. -/
theorem upsertBatches_fill (xs ys : List Row) (batch : List Row)
    (hfill : batch.length + xs.length = batchSize) (hlt : batch.length < batchSize) :
    upsertBatches (xs ++ ys) batch = (batch ++ xs) :: upsertBatches ys [] := by
  induction xs generalizing batch with
  | nil => simp at hfill; omega
  | cons x xs' ih =>
    simp only [List.cons_append, upsertBatches]
    by_cases hfull : batchSize ≤ (batch ++ [x]).length
    · have hx : xs' = [] := by
        have hlen : xs'.length = 0 := by
          simp [List.length_append] at hfull
          simp [List.length_cons] at hfill
          omega
        exact List.length_eq_zero.mp hlen
      subst hx
      rw [if_pos hfull]
      simp
    · simp only [hfull, if_false]
      have := ih (batch ++ [x])
        (by simp at hfill ⊢; omega)
        (by simp [List.length_append] at hfull ⊢; omega)
      simpa using this

/-- Rows that never fill the batch are flushed together at channel close. -/
theorem upsertBatches_drain (xs : List Row) (batch : List Row)
    (hpos : 0 < batch.length + xs.length)
    (hlt : batch.length + xs.length < batchSize) :
    upsertBatches xs batch = [batch ++ xs] := by
  induction xs generalizing batch with
  | nil =>
    simp at hpos
    simp [upsertBatches, hpos]
  | cons x xs' ih =>
    simp only [upsertBatches]
    have hnotfull : ¬ batchSize ≤ (batch ++ [x]).length := by
      simp at hlt ⊢; omega
    simp only [hnotfull, if_false]
    have := ih (batch ++ [x]) (by simp) (by simp at hlt ⊢; omega)
    simpa using this

/-! ## Helper lemmas about the upsert store semantics -/

/-- The conflict branch of the upsert never changes the key column of any
stored row, so the table's key sequence is untouched. -/
theorem upsert_map_key (b : Bar) (store : Store) :
    ((store.map (fun x => if x.key = b.key then b else x)).map Bar.key) =
      store.map Bar.key := by
  rw [List.map_map]
  apply List.map_congr_left
  intro x _
  by_cases hx : x.key = b.key
  · simp [Function.comp, hx]
  · simp [Function.comp, hx]

/-- Under key integrity, the conflict branch leaves exactly the incoming row
under the incoming key. -/
theorem upsert_filter_eq (b : Bar) (store : Store)
    (hwf : (store.map Bar.key).Nodup) (hmem : ∃ b₀ ∈ store, b₀.key = b.key) :
    (store.map (fun x => if x.key = b.key then b else x)).filter
      (fun x => decide (x.key = b.key)) = [b] := by
  induction store with
  | nil => simp at hmem
  | cons a rest ih =>
    simp only [List.map_cons, List.nodup_cons] at hwf
    obtain ⟨hna, hnd⟩ := hwf
    by_cases ha : a.key = b.key
    · rw [List.map_cons, if_pos ha, List.filter_cons_of_pos (by simp)]
      have hrest : (rest.map (fun x => if x.key = b.key then b else x)).filter
          (fun x => decide (x.key = b.key)) = [] := by
        rw [List.filter_eq_nil_iff]
        intro x hx
        simp only [List.mem_map] at hx
        obtain ⟨y, hy, rfl⟩ := hx
        have hyk : y.key ≠ b.key := by
          intro hk
          exact hna (ha ▸ hk ▸ List.mem_map_of_mem Bar.key hy)
        rw [if_neg hyk]
        simpa using hyk
      rw [hrest]
    · rw [List.map_cons, if_neg ha, List.filter_cons_of_neg (by simpa using ha)]
      apply ih hnd
      obtain ⟨b₀, hb₀, hk⟩ := hmem
      rcases List.mem_cons.mp hb₀ with h | h
      · exact absurd (h ▸ hk) ha
      · exact ⟨b₀, h, hk⟩

/-! ## Helper lemmas about the trading calendar -/

/-- A day is market-open exactly when it avoids the two weekend residues
(Saturday: `d % 7 = 2`, Sunday: `d % 7 = 3`, for day numbers with epoch
Thursday) and the holiday list. -/
theorem open_iff (d : Int) : IsMarketOpenOnDay d = true ↔
    (¬ d % 7 = 2 ∧ ¬ d % 7 = 3 ∧ ¬ d ∈ marketHolidays) := by
  unfold IsMarketOpenOnDay IsMarketHoliday weekday
  simp only [Bool.and_eq_true, decide_eq_true_eq, Bool.not_eq_true', decide_eq_false_iff_not]
  constructor
  · rintro ⟨⟨h1, h2⟩, h3⟩
    exact ⟨by omega, by omega, h3⟩
  · rintro ⟨h1, h2, h3⟩
    exact ⟨⟨by omega, by omega⟩, h3⟩

/-- No two configured holidays fall on consecutive days. -/
theorem holidays_not_adjacent (a : Int) (ha : a ∈ marketHolidays)
    (hb : (a + 1) ∈ marketHolidays) : False := by
  simp only [marketHolidays, List.mem_cons, List.not_mem_nil, or_false] at ha
  rcases ha with rfl | rfl | rfl | rfl | rfl | rfl | rfl | rfl | rfl | rfl <;>
    revert hb <;> decide

/-- From two consecutive non-weekend days, at least one is market-open. -/
theorem open_pair (d k : Int) (hk1 : 1 ≤ k) (hk5 : k + 1 ≤ 5)
    (hw1 : ¬ (d - k) % 7 = 2) (hw2 : ¬ (d - k) % 7 = 3)
    (hw3 : ¬ (d - (k + 1)) % 7 = 2) (hw4 : ¬ (d - (k + 1)) % 7 = 3) :
    ∃ j : Int, 1 ≤ j ∧ j ≤ 5 ∧ IsMarketOpenOnDay (d - j) = true := by
  by_cases hh : (d - k) ∈ marketHolidays
  · refine ⟨k + 1, by omega, hk5, (open_iff _).mpr ⟨hw3, hw4, ?_⟩⟩
    intro hmem
    apply holidays_not_adjacent (d - (k + 1)) hmem
    have he : d - (k + 1) + 1 = d - k := by ring
    rw [he]
    exact hh
  · exact ⟨k, hk1, by omega, (open_iff _).mpr ⟨hw1, hw2, hh⟩⟩

/-- Within the five days preceding any day there is a market-open day: any
such window holds two consecutive non-weekend days, of which at most one can
be a holiday. -/
theorem exists_open_within_five (d : Int) :
    ∃ j : Int, 1 ≤ j ∧ j ≤ 5 ∧ IsMarketOpenOnDay (d - j) = true := by
  have hr : d % 7 = 0 ∨ d % 7 = 1 ∨ d % 7 = 2 ∨ d % 7 = 3 ∨ d % 7 = 4 ∨
      d % 7 = 5 ∨ d % 7 = 6 := by omega
  rcases hr with h | h | h | h | h | h | h
  · exact open_pair d 1 (by omega) (by omega) (by omega) (by omega) (by omega) (by omega)
  · exact open_pair d 1 (by omega) (by omega) (by omega) (by omega) (by omega) (by omega)
  · exact open_pair d 1 (by omega) (by omega) (by omega) (by omega) (by omega) (by omega)
  · exact open_pair d 2 (by omega) (by omega) (by omega) (by omega) (by omega) (by omega)
  · exact open_pair d 3 (by omega) (by omega) (by omega) (by omega) (by omega) (by omega)
  · exact open_pair d 4 (by omega) (by omega) (by omega) (by omega) (by omega) (by omega)
  · exact open_pair d 1 (by omega) (by omega) (by omega) (by omega) (by omega) (by omega)

theorem prevOpenDay_lt (d : Int) : prevOpenDay d < d ∧ d - 7 ≤ prevOpenDay d := by
  unfold prevOpenDay
  split_ifs <;> omega

theorem prevOpenDay_open (d : Int) : IsMarketOpenOnDay (prevOpenDay d) = true := by
  unfold prevOpenDay
  split_ifs with h1 h2 h3 h4 h5 h6
  · exact h1
  · exact h2
  · exact h3
  · exact h4
  · exact h5
  · exact h6
  · exfalso
    obtain ⟨j, hj1, hj5, hopen⟩ := exists_open_within_five d
    have hj : j = 1 ∨ j = 2 ∨ j = 3 ∨ j = 4 ∨ j = 5 := by omega
    rcases hj with rfl | rfl | rfl | rfl | rfl
    · exact h1 hopen
    · exact h2 hopen
    · exact h3 hopen
    · exact h4 hopen
    · exact h5 hopen

theorem prevOpenDay_closed_between (d e : Int) (h1 : prevOpenDay d < e) (h2 : e < d) :
    IsMarketOpenOnDay e = false := by
  unfold prevOpenDay at h1
  split_ifs at h1 with ha hb hc hd he' hf
  · omega
  · have : e = d - 1 := by omega
    subst this
    simpa using ha
  · have : e = d - 1 ∨ e = d - 2 := by omega
    rcases this with h | h <;> subst h
    · simpa using ha
    · simpa using hb
  · have : e = d - 1 ∨ e = d - 2 ∨ e = d - 3 := by omega
    rcases this with h | h | h <;> subst h
    · simpa using ha
    · simpa using hb
    · simpa using hc
  · have : e = d - 1 ∨ e = d - 2 ∨ e = d - 3 ∨ e = d - 4 := by omega
    rcases this with h | h | h | h <;> subst h
    · simpa using ha
    · simpa using hb
    · simpa using hc
    · simpa using hd
  · have : e = d - 1 ∨ e = d - 2 ∨ e = d - 3 ∨ e = d - 4 ∨ e = d - 5 := by omega
    rcases this with h | h | h | h | h <;> subst h
    · simpa using ha
    · simpa using hb
    · simpa using hc
    · simpa using hd
    · simpa using he'
  · have : e = d - 1 ∨ e = d - 2 ∨ e = d - 3 ∨ e = d - 4 ∨ e = d - 5 ∨ e = d - 6 := by
      omega
    rcases this with h | h | h | h | h | h <;> subst h
    · simpa using ha
    · simpa using hb
    · simpa using hc
    · simpa using hd
    · simpa using he'
    · simpa using hf

/-- `prevOpenDay d` is the unique market-open day strictly below `d` with no
open day in between. -/
theorem prevOpenDay_unique (d y : Int) (h1 : y < d) (h2 : IsMarketOpenOnDay y = true)
    (h3 : ∀ z, y < z → z < d → IsMarketOpenOnDay z = false) : prevOpenDay d = y := by
  rcases lt_trichotomy (prevOpenDay d) y with h | h | h
  · have := prevOpenDay_closed_between d y h h1
    rw [h2] at this
    cases this
  · exact h
  · have hlt := prevOpenDay_lt d
    have := h3 (prevOpenDay d) h (by omega)
    rw [prevOpenDay_open d] at this
    cases this

/-- Stepping over a closed day does not change the previous open day. -/
theorem prevOpenDay_shift_closed (d : Int) (h : IsMarketOpenOnDay (d - 1) = false) :
    prevOpenDay d = prevOpenDay (d - 1) := by
  have hlt := prevOpenDay_lt (d - 1)
  apply prevOpenDay_unique d (prevOpenDay (d - 1)) (by omega) (prevOpenDay_open (d - 1))
  intro z hz1 hz2
  rcases lt_or_ge z (d - 1) with hz | hz
  · exact prevOpenDay_closed_between (d - 1) z hz1 hz
  · have : z = d - 1 := by omega
    subst this
    exact h

theorem lastRetainedDay_le (today : Int) (n : Nat) : LastRetainedDay today n ≤ today := by
  induction n with
  | zero => exact le_refl today
  | succ n ih =>
    have := prevOpenDay_lt (LastRetainedDay today n)
    show prevOpenDay (LastRetainedDay today n) ≤ today
    omega

theorem lastRetainedDay_lt (today : Int) (n : Nat) (h : 1 ≤ n) :
    LastRetainedDay today n < today := by
  cases n with
  | zero => omega
  | succ m =>
    have h1 := prevOpenDay_lt (LastRetainedDay today m)
    have h2 := lastRetainedDay_le today m
    show prevOpenDay (LastRetainedDay today m) < today
    omega

theorem lastRetainedDay_lb (today : Int) (n : Nat) :
    today - 7 * (n : Int) ≤ LastRetainedDay today n := by
  induction n with
  | zero => simp [LastRetainedDay]
  | succ n ih =>
    have := prevOpenDay_lt (LastRetainedDay today n)
    show today - 7 * ((n : Int) + 1) ≤ prevOpenDay (LastRetainedDay today n)
    omega

theorem lastRetainedDay_open (today : Int) (n : Nat) (h : 1 ≤ n) :
    IsMarketOpenOnDay (LastRetainedDay today n) = true := by
  cases n with
  | zero => omega
  | succ m => exact prevOpenDay_open (LastRetainedDay today m)

theorem openBetween_split (a b c : Int) (hab : a ≤ b) (hbc : b ≤ c) :
    marketOpenDaysBetween a c = marketOpenDaysBetween a b + marketOpenDaysBetween b c := by
  unfold marketOpenDaysBetween
  rw [← Finset.Ico_union_Ico_eq_Ico hab hbc, Finset.filter_union,
    Finset.card_union_of_disjoint
      (Finset.disjoint_filter_filter (Finset.Ico_disjoint_Ico_consecutive a b c))]

/-- Stepping the lower bound of the window down to the previous open day adds
exactly that one open day to the count. -/
theorem openBetween_prevOpen (x b : Int) (hxb : x ≤ b) :
    marketOpenDaysBetween (prevOpenDay x) b = 1 + marketOpenDaysBetween x b := by
  have hlt := prevOpenDay_lt x
  rw [openBetween_split (prevOpenDay x) x b (by omega) hxb]
  have hone : marketOpenDaysBetween (prevOpenDay x) x = 1 := by
    unfold marketOpenDaysBetween
    have hset : (Finset.Ico (prevOpenDay x) x).filter (fun d => IsMarketOpenOnDay d = true) =
        {prevOpenDay x} := by
      ext y
      simp only [Finset.mem_filter, Finset.mem_Ico, Finset.mem_singleton]
      constructor
      · rintro ⟨⟨hy1, hy2⟩, hy3⟩
        by_contra hne
        have hlt2 : prevOpenDay x < y := lt_of_le_of_ne hy1 (Ne.symm hne)
        have hc := prevOpenDay_closed_between x y hlt2 hy2
        rw [hy3] at hc
        cases hc
      · rintro rfl
        exact ⟨⟨le_refl _, by omega⟩, prevOpenDay_open x⟩
    rw [hset, Finset.card_singleton]
  rw [hone]

/-- The number of market-open days `d` with `r ≤ d < today`, for `r` the
result of walking back `n` counted open days, is exactly `n`. -/
theorem lastRetainedDay_count (today : Int) (n : Nat) :
    marketOpenDaysBetween (LastRetainedDay today n) today = n := by
  induction n with
  | zero =>
    show marketOpenDaysBetween today today = 0
    unfold marketOpenDaysBetween
    simp
  | succ n ih =>
    show marketOpenDaysBetween (prevOpenDay (LastRetainedDay today n)) today = n + 1
    rw [openBetween_prevOpen _ _ (lastRetainedDay_le today n), ih]
    omega

/-- A first counted step over an open day: walking `k + 1` open days back from
`d` is walking `k` open days back from `d - 1`. -/
theorem lastRetainedDay_step_open (d : Int) (h : IsMarketOpenOnDay (d - 1) = true)
    (k : Nat) : LastRetainedDay d (k + 1) = LastRetainedDay (d - 1) k := by
  induction k with
  | zero =>
    show prevOpenDay d = d - 1
    exact prevOpenDay_unique d (d - 1) (by omega) h
      (fun z hz1 hz2 => absurd hz1 (by omega))
  | succ k ih =>
    show prevOpenDay (LastRetainedDay d (k + 1)) = LastRetainedDay (d - 1) (k + 1)
    rw [ih]
    rfl

/-- A first uncounted step over a closed day leaves every later target
unchanged. -/
theorem lastRetainedDay_step_closed (d : Int) (h : IsMarketOpenOnDay (d - 1) = false)
    (k : Nat) (hk : 1 ≤ k) : LastRetainedDay d k = LastRetainedDay (d - 1) k := by
  induction k with
  | zero => omega
  | succ k ih =>
    rcases Nat.eq_zero_or_pos k with hz | hpos
    · subst hz
      show prevOpenDay d = prevOpenDay (d - 1)
      exact prevOpenDay_shift_closed d h
    · show prevOpenDay (LastRetainedDay d k) = prevOpenDay (LastRetainedDay (d - 1) k)
      rw [ih hpos]

/-- The literal Go loop computes `LastRetainedDay` whenever its fuel covers the
exact number of iterations (one per day stepped over). -/
theorem lastRetainedLoop_exact :
    ∀ (fuel : Nat) (curr : Int) (i n : Nat),
      (curr - LastRetainedDay curr (n - i)).toNat ≤ fuel →
      lastRetainedLoop curr i n fuel = some (LastRetainedDay curr (n - i)) := by
  intro fuel
  induction fuel with
  | zero =>
    intro curr i n h
    rcases Nat.eq_zero_or_pos (n - i) with hni | hni
    · show (if i < n then none else some curr) = some (LastRetainedDay curr (n - i))
      rw [if_neg (by omega), hni]
      rfl
    · exfalso
      have hlt := lastRetainedDay_lt curr (n - i) hni
      omega
  | succ fuel ih =>
    intro curr i n h
    simp only [lastRetainedLoop]
    by_cases hin : i < n
    · rw [if_pos hin]
      have hlt : LastRetainedDay curr (n - i) < curr :=
        lastRetainedDay_lt curr (n - i) (by omega)
      by_cases hopen : IsMarketOpenOnDay (curr - 1) = true
      · rw [if_pos hopen]
        have hni : n - i = (n - (i + 1)) + 1 := by omega
        have heq : LastRetainedDay curr (n - i) = LastRetainedDay (curr - 1) (n - (i + 1)) := by
          rw [hni]
          exact lastRetainedDay_step_open curr hopen (n - (i + 1))
        rw [heq]
        apply ih (curr - 1) (i + 1) n
        rw [← heq]
        omega
      · rw [if_neg hopen]
        have hclosed : IsMarketOpenOnDay (curr - 1) = false := by
          simpa using hopen
        have heq : LastRetainedDay curr (n - i) = LastRetainedDay (curr - 1) (n - i) :=
          lastRetainedDay_step_closed curr hclosed (n - i) (by omega)
        rw [heq]
        apply ih (curr - 1) i n
        rw [← heq]
        omega
    · rw [if_neg hin]
      have hni : n - i = 0 := by omega
      rw [hni]
      rfl

/-- With fuel `7 * n` — ample, since each counted open day is at most seven
days back — the literal loop agrees with the iterated form. -/
theorem lastRetainedLoop_eq (today : Int) (n : Nat) :
    lastRetainedLoop today 0 n (7 * n) = some (LastRetainedDay today n) := by
  have h1 := lastRetainedDay_lb today n
  have h2 := lastRetainedDay_le today n
  have h := lastRetainedLoop_exact (7 * n) today 0 n
  simp only [Nat.sub_zero] at h ⊢
  apply h
  push_cast at h1
  omega

/-! ## The claims -/

/-- C1 (code bug evidence). The claim states the intended routing: merge path
exactly when `filledBefore ≤ ts ≤ unfilledAfter`. The implemented `Contains`
is disjunctive, so a row at timestamp 200, strictly after the boundary
`⟨filledBefore := 0, unfilledAfter := 100⟩`, is routed to the merge path even
though the intended predicate rejects it and the claim requires the bulk
path. -/
theorem contains_routes_outside_window_to_merge :
    partiallyFilledRange.Contains ⟨some 0, some 100⟩ 200 = true ∧
    mergePredicateSpec 0 100 200 = false ∧
    routeRun ⟨some 0, some 100⟩ [([Val.vStr "SYM", Val.vTime 200], none)] =
      ⟨[], [[Val.vStr "SYM", Val.vTime 200]], []⟩ := by
  refine ⟨by decide, by decide, by decide⟩

/-- C2: with both bounds present and `FilledBefore ≤ UnfilledAfter`, the
disjunctive `Contains` accepts every timestamp, so the router sends no row at
all to the bulk-path channel. -/
theorem contains_always_true_when_bounds_ordered (fb ua : Int) (h : fb ≤ ua) :
    (∀ t : Int, partiallyFilledRange.Contains ⟨some fb, some ua⟩ t = true) ∧
    (∀ items, (routeRun ⟨some fb, some ua⟩ items).bulk = []) := by
  have hc : ∀ t : Int, partiallyFilledRange.Contains ⟨some fb, some ua⟩ t = true := by
    intro t
    unfold partiallyFilledRange.Contains
    by_cases hle : fb ≤ t
    · simp [Option.any, hle]
    · have hua : t ≤ ua := by omega
      simp [Option.any, hle, hua]
  refine ⟨hc, fun items => ?_⟩
  induction items with
  | nil => rfl
  | cons it rest ih =>
    obtain ⟨values, e⟩ := it
    simp [routeRun, hc (rowTs values), ih]

/-- Witness for C2 at the boundary `⟨some 0, some 5⟩` and a timestamp far
outside `[0, 5]`. -/
theorem contains_always_true_when_bounds_ordered_witness :
    partiallyFilledRange.Contains ⟨some 0, some 5⟩ 99 = true ∧
    (routeRun ⟨some 0, some 5⟩ [([Val.vStr "SYM", Val.vTime 99], none)]).bulk = [] :=
  ⟨(contains_always_true_when_bounds_ordered 0 5 (by decide)).1 99,
   (contains_always_true_when_bounds_ordered 0 5 (by decide)).2
     [([Val.vStr "SYM", Val.vTime 99], none)]⟩

/-- C3 (code bug evidence): when the COPY FROM operation fails with any error
`e`, the copy-from goroutine sends nothing on the error channel — its guard
reads the enclosing nil `err`, not the operation's result — and Backfill
returns nil for a run whose other stages succeed. The claim requires the error
to be sent once and Backfill to return it. -/
theorem copyFrom_error_never_reported (e : String) (pfr : partiallyFilledRange)
    (rows : List Row) :
    copyFromGoroutineSends (some e) none = [] ∧
    backfillResult pfr (rows.map (fun r => (r, none))) (some e) none = none := by
  refine ⟨rfl, ?_⟩
  have herrs := routeRun_errs pfr (rows.map (fun r => (r, none)))
  simp [backfillResult, backfillDrain, copyFromGoroutineSends, upsertGoroutineSends,
    herrs, List.filterMap_map]

/-- C4: upserting a row whose `(s_id, ts)` key already exists overwrites every
non-key column with the incoming values and leaves exactly one stored row for
that key; the row count is unchanged and key integrity is preserved — values
are replaced, never duplicated and never summed. -/
theorem upsert_overwrites_existing_key (store : Store) (b₀ b : Bar)
    (hwf : wfStore store) (hmem : b₀ ∈ store) (hkey : b₀.key = b.key) :
    (upsertRow store b).filter (fun x => decide (x.key = b.key)) = [b] ∧
    (upsertRow store b).length = store.length ∧
    wfStore (upsertRow store b) := by
  have hany : store.any (fun x => decide (x.key = b.key)) = true := by
    rw [List.any_eq_true]
    exact ⟨b₀, hmem, by simp [hkey]⟩
  unfold upsertRow
  rw [if_pos hany]
  refine ⟨upsert_filter_eq b store hwf ⟨b₀, hmem, hkey⟩, by simp, ?_⟩
  unfold wfStore
  rw [upsert_map_key]
  exact hwf

/-- Witness for C4, the spec's own example: over the stored bar
(SYM, 0, 1, 2, 1/2, 3/2, 100, 10), upserting (SYM, 0, 1, 2, 1/2, 3/2, 200, 20)
stores volume 200 and transactions 20 — overwritten, not summed — in a
single row. -/
theorem upsert_overwrites_existing_key_witness :
    wfStore [⟨"SYM", 0, 1, 2, 1/2, 3/2, 100, 10⟩] ∧
    ((upsertRow [⟨"SYM", 0, 1, 2, 1/2, 3/2, 100, 10⟩]
        ⟨"SYM", 0, 1, 2, 1/2, 3/2, 200, 20⟩).filter
      (fun x => decide (x.key = Bar.key ⟨"SYM", 0, 1, 2, 1/2, 3/2, 200, 20⟩)) =
      [⟨"SYM", 0, 1, 2, 1/2, 3/2, 200, 20⟩]) ∧
    (upsertRow [⟨"SYM", 0, 1, 2, 1/2, 3/2, 100, 10⟩]
        ⟨"SYM", 0, 1, 2, 1/2, 3/2, 200, 20⟩).length = 1 :=
  ⟨by simp [wfStore],
   (upsert_overwrites_existing_key [⟨"SYM", 0, 1, 2, 1/2, 3/2, 100, 10⟩]
      ⟨"SYM", 0, 1, 2, 1/2, 3/2, 100, 10⟩ ⟨"SYM", 0, 1, 2, 1/2, 3/2, 200, 20⟩
      (by simp [wfStore]) (List.mem_cons_self _ _) rfl).1,
   (upsert_overwrites_existing_key [⟨"SYM", 0, 1, 2, 1/2, 3/2, 100, 10⟩]
      ⟨"SYM", 0, 1, 2, 1/2, 3/2, 100, 10⟩ ⟨"SYM", 0, 1, 2, 1/2, 3/2, 200, 20⟩
      (by simp [wfStore]) (List.mem_cons_self _ _) rfl).2.1⟩

/-- C5: the ingestion start is `*FilledBefore` when present; otherwise it is
`LastRetainedDay(now, n)` with `n` the environment value when it parses as an
integer in [0, 255], and 14 when the variable is absent, unparsable, or out of
range. -/
theorem backfill_start_selection (pfr : partiallyFilledRange) (env : String)
    (nowDay : Int) :
    (∀ fb, pfr.FilledBefore = some fb → backfillIngestFrom pfr env nowDay = fb) ∧
    (pfr.FilledBefore = none →
      backfillIngestFrom pfr env nowDay =
        dayStartUTC (LastRetainedDay nowDay (retentionDays env))) ∧
    (∀ k : Int, goAtoi env = some k → 0 ≤ k → k ≤ 255 → retentionDays env = k.toNat) ∧
    (goAtoi env = none → retentionDays env = 14) ∧
    (∀ k : Int, goAtoi env = some k → (k < 0 ∨ 255 < k) → retentionDays env = 14) := by
  refine ⟨?_, ?_, ?_, ?_, ?_⟩
  · intro fb hfb
    simp [backfillIngestFrom, hfb]
  · intro hnone
    simp [backfillIngestFrom, hnone]
  · intro k hk h0 h255
    simp only [retentionDays, hk]
    have hcond : ¬ (k < 0 ∨ 255 < k) := not_or.mpr ⟨by omega, by omega⟩
    rw [if_neg hcond]
  · intro hk
    simp [retentionDays, hk]
  · intro k hk hout
    simp only [retentionDays, hk]
    rw [if_pos hout]

/-- Witness for C5: a present boundary wins; an empty boundary uses the
retention window; `"7"` parses to 7, while absence and 300 fall back to 14. -/
theorem backfill_start_selection_witness :
    backfillIngestFrom ⟨some 42, some 99⟩ "7" 20282 = 42 ∧
    backfillIngestFrom ⟨none, none⟩ "7" 20282 =
      dayStartUTC (LastRetainedDay 20282 (retentionDays "7")) ∧
    retentionDays "7" = 7 ∧
    retentionDays "" = 14 ∧
    retentionDays "300" = 14 :=
  ⟨(backfill_start_selection ⟨some 42, some 99⟩ "7" 20282).1 42 rfl,
   (backfill_start_selection ⟨none, none⟩ "7" 20282).2.1 rfl,
   (backfill_start_selection ⟨none, none⟩ "7" 20282).2.2.1 7 (by decide)
     (by decide) (by decide),
   (backfill_start_selection ⟨none, none⟩ "" 20282).2.2.2.1 (by decide),
   (backfill_start_selection ⟨none, none⟩ "300" 20282).2.2.2.2 300 (by decide)
     (Or.inr (by decide))⟩

/-- C7 counterexample: the claim says a `Values()` error makes the router stop
processing the remaining rows; here the row after the failing one is still
routed (to the bulk channel), so the claim is false on the code. -/
theorem router_continues_after_values_error_cex :
    routeRun ⟨none, none⟩
        [([Val.vStr "A", Val.vTime 1], some "bad row"),
         ([Val.vStr "B", Val.vTime 2], none)] =
      ⟨[[Val.vStr "A", Val.vTime 1], [Val.vStr "B", Val.vTime 2]], [], ["bad row"]⟩ ∧
    ¬ ((routeRun ⟨none, none⟩
        [([Val.vStr "A", Val.vTime 1], some "bad row"),
         ([Val.vStr "B", Val.vTime 2], none)]).bulk.count
          [Val.vStr "B", Val.vTime 2] = 0 ∧
       (routeRun ⟨none, none⟩
        [([Val.vStr "A", Val.vTime 1], some "bad row"),
         ([Val.vStr "B", Val.vTime 2], none)]).merge.count
          [Val.vStr "B", Val.vTime 2] = 0) := by
  refine ⟨by decide, by decide⟩

/-- C7 as amended: when `Values()` fails for some row in a run with at most
two failing rows — so that every error send fits the capacity-2 error channel
and none blocks — the router sends that error on the shared error channel but
continues processing, still routing every row of the run to a channel;
Backfill returns the first reported error when both write stages succeed.
(With three or more failing rows the router blocks on its third `errCh` send
before the drain runs, and Backfill never returns; that regime is outside this
statement.) -/
theorem router_reports_error_and_continues (pfr : partiallyFilledRange)
    (pre rest : List (Row × Option String)) (r : Row) (e : String)
    (hpre : ∀ p ∈ pre, p.2 = (none : Option String))
    (_hrest : (rest.filterMap Prod.snd).length ≤ 1) :
    (routeRun pfr (pre ++ (r, some e) :: rest)).bulk.length +
      (routeRun pfr (pre ++ (r, some e) :: rest)).merge.length =
      (pre ++ (r, some e) :: rest).length ∧
    (routeRun pfr (pre ++ (r, some e) :: rest)).errs.head? = some e ∧
    backfillResult pfr (pre ++ (r, some e) :: rest) none none = some e := by
  have hpre' : pre.filterMap Prod.snd = [] := by
    rw [List.filterMap_eq_nil_iff]
    exact hpre
  have herrs' : (routeRun pfr (pre ++ (r, some e) :: rest)).errs =
      e :: rest.filterMap Prod.snd := by
    rw [routeRun_errs, List.filterMap_append, hpre']
    simp
  refine ⟨routeRun_length pfr _, by rw [herrs']; rfl, ?_⟩
  simp [backfillResult, backfillDrain, copyFromGoroutineSends, upsertGoroutineSends,
    herrs']

/-- Witness for C7 as amended: a three-row run whose middle row alone fails,
well within the error channel's capacity. -/
theorem router_reports_error_and_continues_witness :
    (routeRun ⟨none, none⟩ ([([Val.vStr "A", Val.vTime 1], none)] ++
        ([Val.vStr "B", Val.vTime 2], some "bad") ::
        [([Val.vStr "C", Val.vTime 3], none)])).bulk.length +
      (routeRun ⟨none, none⟩ ([([Val.vStr "A", Val.vTime 1], none)] ++
        ([Val.vStr "B", Val.vTime 2], some "bad") ::
        [([Val.vStr "C", Val.vTime 3], none)])).merge.length =
      ([([Val.vStr "A", Val.vTime 1], none)] ++
        ([Val.vStr "B", Val.vTime 2], some "bad") ::
        [([Val.vStr "C", Val.vTime 3], none)]).length ∧
    (routeRun ⟨none, none⟩ ([([Val.vStr "A", Val.vTime 1], none)] ++
        ([Val.vStr "B", Val.vTime 2], some "bad") ::
        [([Val.vStr "C", Val.vTime 3], none)])).errs.head? = some "bad" ∧
    backfillResult ⟨none, none⟩ ([([Val.vStr "A", Val.vTime 1], none)] ++
        ([Val.vStr "B", Val.vTime 2], some "bad") ::
        [([Val.vStr "C", Val.vTime 3], none)]) none none = some "bad" :=
  router_reports_error_and_continues ⟨none, none⟩
    [([Val.vStr "A", Val.vTime 1], none)] [([Val.vStr "C", Val.vTime 3], none)]
    [Val.vStr "B", Val.vTime 2] "bad" (by decide) (by decide)

/-- C8: the router sends every produced row to exactly one of the two channels,
and the bulk-path count plus the merge-path count equals the number of rows
produced. -/
theorem router_routes_each_row_exactly_once (pfr : partiallyFilledRange)
    (items : List (Row × Option String)) :
    (routeRun pfr items).bulk.length + (routeRun pfr items).merge.length =
      items.length ∧
    ∀ r : Row, (routeRun pfr items).bulk.count r + (routeRun pfr items).merge.count r =
      (items.map Prod.fst).count r :=
  ⟨routeRun_length pfr items, routeRun_count pfr items⟩

/-- C9: with merge batch size 1000, a run of exactly 1001 merge-path rows is
written in two upsert calls — the first 1000 rows, then the remaining one. -/
theorem upsert_batches_flush_at_1000_then_1 (rows : List Row)
    (hlen : rows.length = batchSize + 1) :
    upsertBatches rows [] = [rows.take batchSize, rows.drop batchSize] ∧
    (rows.take batchSize).length = batchSize ∧
    (rows.drop batchSize).length = 1 := by
  have hbs : batchSize = 1000 := rfl
  have htake : (rows.take batchSize).length = batchSize := by
    rw [List.length_take]
    omega
  have hdrop : (rows.drop batchSize).length = 1 := by
    rw [List.length_drop]
    omega
  refine ⟨?_, htake, hdrop⟩
  have hsplit := List.take_append_drop batchSize rows
  have hfill := upsertBatches_fill (rows.take batchSize) (rows.drop batchSize) []
    (by simpa using htake) (by simp only [List.length_nil]; omega)
  rw [hsplit] at hfill
  rw [hfill, upsertBatches_drain (rows.drop batchSize) []
    (by simp only [List.length_nil]; omega) (by simp only [List.length_nil]; omega)]
  simp

/-- Witness for C9 on 1001 concrete rows. -/
theorem upsert_batches_flush_at_1000_then_1_witness :
    upsertBatches (List.replicate (batchSize + 1) zeroRow) [] =
      [(List.replicate (batchSize + 1) zeroRow).take batchSize,
       (List.replicate (batchSize + 1) zeroRow).drop batchSize] ∧
    ((List.replicate (batchSize + 1) zeroRow).take batchSize).length = batchSize ∧
    ((List.replicate (batchSize + 1) zeroRow).drop batchSize).length = 1 :=
  upsert_batches_flush_at_1000_then_1 (List.replicate (batchSize + 1) zeroRow)
    (by simp)

/-- C10: when the merge-path channel closes with an empty accumulated batch —
the row total is an exact multiple of 1000, zero included — the loop appends
the zero-value row received from the closed channel and issues one final
upsert whose batch is exactly that single zero row: the batch sequence ends in
`[zeroRow]` and has one more entry than the number of full flushes. -/
theorem upsert_batches_zero_row_flush (rows : List Row) (k : Nat)
    (hlen : rows.length = batchSize * k) :
    (upsertBatches rows []).getLast? = some [zeroRow] ∧
    (upsertBatches rows []).length = k + 1 := by
  induction k generalizing rows with
  | zero =>
    have hnil : rows = [] := List.length_eq_zero.mp (by simpa using hlen)
    subst hnil
    exact ⟨rfl, rfl⟩
  | succ k ih =>
    have hbs : batchSize = 1000 := rfl
    have hlen1000 : rows.length = 1000 * (k + 1) := hlen
    have htake : (rows.take batchSize).length = batchSize := by
      rw [List.length_take]
      omega
    have hdrop1000 : (rows.drop batchSize).length = 1000 * k := by
      rw [List.length_drop]
      omega
    have hdrop : (rows.drop batchSize).length = batchSize * k := hdrop1000
    have hfill := upsertBatches_fill (rows.take batchSize) (rows.drop batchSize) []
      (by simpa using htake) (by simp only [List.length_nil]; omega)
    rw [List.take_append_drop] at hfill
    obtain ⟨ihl, ihlen⟩ := ih (rows.drop batchSize) hdrop
    constructor
    · rw [hfill]
      rcases h : upsertBatches (rows.drop batchSize) [] with _ | ⟨c, cs⟩
      · rw [h] at ihlen
        simp at ihlen
      · rw [h] at ihl
        rw [List.getLast?_cons_cons]
        exact ihl
    · rw [hfill]
      simp [ihlen]

/-- Witness for C10 at the zero-row multiple: an empty merge path still issues
one upsert call, on the single zero row. -/
theorem upsert_batches_zero_row_flush_witness :
    (upsertBatches ([] : List Row) []).getLast? = some [zeroRow] ∧
    (upsertBatches ([] : List Row) []).length = 0 + 1 :=
  upsert_batches_zero_row_flush [] 0 (by decide)

/-- C6: for every `n ≥ 0` and every day, the retention-window calculator skips
weekends and every configured holiday — for `n ≥ 1` it lands on a market-open
day — and the count of market-open days lying strictly between the returned
instant (the start of the returned day) and `now` (within `today`), i.e. the
open days `d` with `r ≤ d < today`, equals `n`. The first conjunct ties the
iterated form to the literal Go loop run with ample fuel. -/
theorem lastRetainedDay_counts_open_days (today : Int) (n : Nat) :
    lastRetainedLoop today 0 n (7 * n) = some (LastRetainedDay today n) ∧
    marketOpenDaysBetween (LastRetainedDay today n) today = n ∧
    (1 ≤ n → IsMarketOpenOnDay (LastRetainedDay today n) = true) :=
  ⟨lastRetainedLoop_eq today n, lastRetainedDay_count today n,
   fun h => lastRetainedDay_open today n h⟩

/-- Witness for C6, the spec's own scenario: from Sunday 2025-07-13 (day
20282) with two retained trading days, the calculator lands on Thursday
2025-07-10 (day 20279), skipping the weekend. -/
theorem lastRetainedDay_counts_open_days_witness :
    (lastRetainedLoop 20282 0 2 (7 * 2) = some (LastRetainedDay 20282 2) ∧
     marketOpenDaysBetween (LastRetainedDay 20282 2) 20282 = 2 ∧
     (1 ≤ 2 → IsMarketOpenOnDay (LastRetainedDay 20282 2) = true)) ∧
    LastRetainedDay 20282 2 = 20279 :=
  ⟨lastRetainedDay_counts_open_days 20282 2, by decide⟩

end Traderkit
